import Mathlib

/-!
Verification of the availability engine of the GoogleCalendar-SlackApp
repository: the interval algebra and slot search of `src/utils/intervals.ts`
and the expression parser of `src/utils/parse.ts`.

Instants are modeled as integers (minutes in one fixed zone): the interval
algebra only compares, subtracts, and clamps luxon `DateTime`s, so a linearly
ordered integer timeline is a faithful model.  The parser regexes are
translated into explicit character-list matchers with the same backtracking
order.
-/

namespace GCalApp

/-- Model of the half-open record `{ start: DateTime; end: DateTime }` used
throughout `src/utils/intervals.ts`; an interval denotes `[start, end)`. -/
structure Interval where
  start : Int
  «end» : Int
  deriving DecidableEq

/-- Model of the comparator `(a, b) => a.start.toMillis() - b.start.toMillis()`
passed to `Array.prototype.sort` in `mergeBusyIntervals`. -/
def startLE (a b : Interval) : Prop := a.start ≤ b.start

instance : DecidableRel startLE := fun a b => Int.decLe a.start b.start

instance : IsTotal Interval startLE := ⟨fun a b => Int.le_total a.start b.start⟩

instance : IsTrans Interval startLE := ⟨fun _ _ _ h1 h2 => le_trans h1 h2⟩

/-- Model of the `.map` step of `mergeBusyIntervals`:
`start: interval.start < rangeStart ? rangeStart : interval.start` and
`end: interval.end > rangeEnd ? rangeEnd : interval.end`. -/
def clampTo (rangeStart rangeEnd : Int) (i : Interval) : Interval :=
  ⟨if i.start < rangeStart then rangeStart else i.start,
   if rangeEnd < i.«end» then rangeEnd else i.«end»⟩

/-- Model of the sweep loop of `mergeBusyIntervals`, with `cur` the currently
open merged interval (`merged[merged.length - 1]` in the source): a new
interval is opened when `interval.start > last.end`, otherwise the open one
is extended when `interval.end > last.end`. -/
def mergeRun (cur : Interval) : List Interval → List Interval
  | [] => [cur]
  | i :: rest =>
    if cur.«end» < i.start then cur :: mergeRun i rest
    else if cur.«end» < i.«end» then mergeRun ⟨cur.start, i.«end»⟩ rest
    else mergeRun cur rest

/-- Model of the whole sweep of `mergeBusyIntervals` over the sorted clamped
list (the `merged` accumulator starts empty). -/
def mergeSweep : List Interval → List Interval
  | [] => []
  | i :: rest => mergeRun i rest

/-- Model of `mergeBusyIntervals` from `src/utils/intervals.ts`: clamp each
busy interval into the range, drop the ones whose clamped `end <= start`,
sort by `start` (ECMAScript `sort` is stable, hence insertion sort), and
sweep, merging overlapping or touching intervals. -/
def mergeBusyIntervals (intervals : List Interval) (rangeStart rangeEnd : Int) :
    List Interval :=
  mergeSweep (List.insertionSort startLE
    ((intervals.map (clampTo rangeStart rangeEnd)).filter
      (fun i => decide (i.start < i.«end»))))

/-- Model of the cursor loop of `buildFreeIntervals`, including the trailing
`if (cursor < rangeEnd)` push after the loop. -/
def buildFreeLoop (rangeEnd : Int) (cursor : Int) : List Interval → List Interval
  | [] => if cursor < rangeEnd then [⟨cursor, rangeEnd⟩] else []
  | i :: rest =>
    (if cursor < i.start then [⟨cursor, i.start⟩] else []) ++
      buildFreeLoop rangeEnd (if cursor < i.«end» then i.«end» else cursor) rest

/-- Model of `buildFreeIntervals` from `src/utils/intervals.ts`. -/
def buildFreeIntervals (rangeStart rangeEnd : Int) (busy : List Interval) :
    List Interval :=
  if busy = [] then [⟨rangeStart, rangeEnd⟩] else buildFreeLoop rangeEnd rangeStart busy

/-- Model of the `{ hour, minute }` records of `src/utils/parse.ts`. -/
structure TimeOfDay where
  hour : Int
  minute : Int
  deriving DecidableEq

/-- Model of a `{ start, end }` time-of-day range. -/
structure TimeOfDayRange where
  start : TimeOfDay
  «end» : TimeOfDay
  deriving DecidableEq

/-- Model of `day.set({ hour, minute })` for a start-of-day instant `day` on
the minute timeline. -/
def setTime (day : Int) (t : TimeOfDay) : Int := day + 60 * t.hour + t.minute

/-- Model of `findFirstAvailableSlot` from `src/utils/intervals.ts`; the
`for` loop over `days` becomes recursion, and
`interval.end.diff(interval.start, 'minutes').minutes` is `end - start` on
the minute timeline. -/
def findFirstAvailableSlot (days : List Int) (timeRange : TimeOfDayRange)
    (durationMinutes : Int) (busy : List Interval) : Option Int :=
  match days with
  | [] => none
  | day :: rest =>
    let dayStart := setTime day timeRange.start
    let dayEnd := setTime day timeRange.«end»
    if dayEnd ≤ dayStart then findFirstAvailableSlot rest timeRange durationMinutes busy
    else
      match (buildFreeIntervals dayStart dayEnd
          (mergeBusyIntervals busy dayStart dayEnd)).find?
          (fun i => decide (durationMinutes ≤ i.«end» - i.start)) with
      | some i => some i.start
      | none => findFirstAvailableSlot rest timeRange durationMinutes busy

/-- Specification-side companion to `findFirstAvailableSlot`, written from
the spec's words (§4.4): for each day in order, skip it when the window is
empty, otherwise return the `start` of the first free interval at least
`durationMinutes` long; `none` when no day yields one. -/
def firstSlotSpec (days : List Int) (timeRange : TimeOfDayRange)
    (durationMinutes : Int) (busy : List Interval) : Option Int :=
  days.findSome? (fun day =>
    let s := setTime day timeRange.start
    let e := setTime day timeRange.«end»
    if e ≤ s then none
    else
      ((buildFreeIntervals s e (mergeBusyIntervals busy s e)).find?
        (fun i => decide (durationMinutes ≤ i.«end» - i.start))).map Interval.start)

/-- Two-digit zero padding, as in `toFormat('HH:mm')`. -/
def pad2 (n : Nat) : String := if n < 10 then "0" ++ toString n else toString n

/-- Model of luxon `toFormat('HH:mm')` on the minute timeline: hour of day
and minute of hour, each zero-padded to two digits. -/
def formatHHMM (t : Int) : String :=
  pad2 ((t.emod 1440).ediv 60).toNat ++ ":" ++ pad2 (t.emod 60).toNat

/-- Model of `formatIntervalsShort` from `src/utils/intervals.ts`: the
sentinel `'なし'` for an empty list, otherwise `'HH:mm - HH:mm'` lines joined
with `'\n'`. -/
def formatIntervalsShort (intervals : List Interval) : String :=
  if intervals = [] then "なし"
  else String.intercalate "\n"
    (intervals.map (fun i => formatHHMM i.start ++ " - " ++ formatHHMM i.«end»))

/-- Membership of an instant in a half-open interval. -/
def memI (t : Int) (I : Interval) : Prop := I.start ≤ t ∧ t < I.«end»

/-- Two intervals share no instant. -/
def disjointI (I J : Interval) : Prop := ∀ t : Int, ¬(memI t I ∧ memI t J)

/-- Strict gap between successive merged busy intervals. -/
def gapped (I J : Interval) : Prop := I.«end» < J.start

/-- Shape guaranteed by `mergeBusyIntervals`: every interval is proper and
clamped into `[a, b]`, and successive intervals are separated by gaps. -/
def Laid (a b : Int) (l : List Interval) : Prop :=
  (∀ i ∈ l, a ≤ i.start ∧ i.start < i.«end» ∧ i.«end» ≤ b) ∧ List.Pairwise gapped l

/-- Value of a digit string, as JavaScript `Number` computes it on a match of
a `\d` group. -/
def digitsToNat (l : List Char) : Nat :=
  l.foldl (fun n c => 10 * n + (c.toNat - '0'.toNat)) 0

/-- Matcher for exactly `n` digits at the head of the input, returning the
digits and the rest. -/
def takeExactDigits : Nat → List Char → Option (List Char × List Char)
  | 0, cs => some ([], cs)
  | _ + 1, [] => none
  | n + 1, c :: cs =>
    if c.isDigit then (takeExactDigits n cs).map (fun p => (c :: p.1, p.2)) else none

/-- All the ways `\d{1,2}` can match a prefix, in the order a backtracking
regex engine tries them (two digits first, then one). -/
def takeDigits12 (cs : List Char) : List (List Char × List Char) :=
  (takeExactDigits 2 cs).toList ++ (takeExactDigits 1 cs).toList

/-- Matcher for `^(\d{4})-(\d{1,2})-(\d{1,2})$` from `parseDateParts`. -/
def matchYMD (cs : List Char) : Option (Nat × Nat × Nat) :=
  match takeExactDigits 4 cs with
  | none => none
  | some (y, r1) =>
    match r1 with
    | '-' :: r2 =>
      (takeDigits12 r2).findSome? (fun p =>
        match p.2 with
        | '-' :: r3 =>
          (takeDigits12 r3).findSome? (fun q =>
            if q.2 = [] then some (digitsToNat y, digitsToNat p.1, digitsToNat q.1)
            else none)
        | _ => none)
    | _ => none

/-- Matcher for `^(\d{1,2})[\/\-](\d{1,2})$` from `parseDateParts`. -/
def matchMD (cs : List Char) : Option (Nat × Nat) :=
  (takeDigits12 cs).findSome? (fun p =>
    match p.2 with
    | c :: r2 =>
      if c = '/' ∨ c = '-' then
        (takeDigits12 r2).findSome? (fun q =>
          if q.2 = [] then some (digitsToNat p.1, digitsToNat q.1) else none)
      else none
    | [] => none)

/-- Model of the record returned by `parseDateParts`. -/
structure DateParts where
  year : Option Nat
  month : Nat
  day : Nat
  hasYear : Bool
  deriving DecidableEq

/-- Model of `parseDateParts` from `src/utils/parse.ts`, over the character
list: the `YYYY-M-D` pattern is tried first, then `M/D` or `M-D`. -/
def parseDatePartsL (cs : List Char) : Option DateParts :=
  match matchYMD cs with
  | some (y, m, d) => some ⟨some y, m, d, true⟩
  | none =>
    match matchMD cs with
    | some (m, d) => some ⟨none, m, d, false⟩
    | none => none

/-- Model of `parseDateParts` on strings. -/
def parseDateParts (s : String) : Option DateParts := parseDatePartsL s.toList

/-- Model of a calendar date, at day granularity in the operative zone.  The
reference instant `now` only enters `parse.ts` through `now.year` and
comparisons against `now.startOf('day')`, so its calendar date suffices. -/
structure PlainDate where
  year : Nat
  month : Nat
  day : Nat
  deriving DecidableEq

/-- Gregorian leap-year rule. -/
def isLeapYear (y : Nat) : Bool := decide ((y % 4 = 0 ∧ y % 100 ≠ 0) ∨ y % 400 = 0)

/-- Length of a month in the proleptic Gregorian calendar. -/
def daysInMonth (y m : Nat) : Nat :=
  if m = 2 then (if isLeapYear y then 29 else 28)
  else if m = 4 ∨ m = 6 ∨ m = 9 ∨ m = 11 then 30
  else 31

/-- Model of luxon `DateTime.fromObject({year, month, day}).isValid`. -/
def isValidDate (y m d : Nat) : Bool :=
  decide (1 ≤ m ∧ m ≤ 12 ∧ 1 ≤ d ∧ d ≤ daysInMonth y m)

/-- Model of luxon `<` on two valid start-of-day dates in one zone:
lexicographic on year, month, day. -/
def dateLtb (p q : PlainDate) : Bool :=
  decide (p.year < q.year ∨ (p.year = q.year ∧
    (p.month < q.month ∨ (p.month = q.month ∧ p.day < q.day))))

/-- Model of `parseDate` from `src/utils/parse.ts`: implicit years take the
reference year and are bumped when the (valid) candidate lies strictly
before the reference date; the returned record is not validity-checked. -/
def parseDate (s : String) (now : PlainDate) : Option PlainDate :=
  match parseDateParts s with
  | none => none
  | some parts =>
    let year := if parts.hasYear then parts.year.getD 0 else now.year
    if ¬parts.hasYear ∧ isValidDate year parts.month parts.day = true ∧
        dateLtb ⟨year, parts.month, parts.day⟩ now = true then
      some ⟨year + 1, parts.month, parts.day⟩
    else some ⟨year, parts.month, parts.day⟩

/-- Model of JavaScript `split('~')` on the character list. -/
def splitOnTilde : List Char → List (List Char)
  | [] => [[]]
  | c :: rest =>
    if c = '~' then [] :: splitOnTilde rest
    else
      match splitOnTilde rest with
      | [] => [[c]]
      | g :: gs => (c :: g) :: gs

/-- Model of JavaScript `split('..')` on the character list (leftmost,
non-overlapping occurrences). -/
def splitOnDotDot : List Char → List (List Char)
  | [] => [[]]
  | [c] => [[c]]
  | c :: d :: rest =>
    if c = '.' ∧ d = '.' then [] :: splitOnDotDot rest
    else
      match splitOnDotDot (d :: rest) with
      | [] => [[c]]
      | g :: gs => (c :: g) :: gs

/-- All the ways `(\d{1,2}[\/\-]\d{1,2})` can match a prefix, as
(capture, rest) pairs in backtracking order. -/
def matchMDToken (cs : List Char) : List (List Char × List Char) :=
  (takeDigits12 cs).flatMap (fun p =>
    match p.2 with
    | c :: rest =>
      if c = '/' ∨ c = '-' then
        (takeDigits12 rest).map (fun q => (p.1 ++ c :: q.1, q.2))
      else []
    | [] => [])

/-- Matcher for `^(\d{1,2}[\/\-]\d{1,2})-(\d{1,2}[\/\-]\d{1,2})$`, the
compact range form of `parseDateRange`, returning the two captures. -/
def matchMDRange (cs : List Char) : Option (List Char × List Char) :=
  (matchMDToken cs).findSome? (fun g1 =>
    match g1.2 with
    | '-' :: r =>
      (matchMDToken r).findSome? (fun g2 => if g2.2 = [] then some (g1.1, g2.1) else none)
    | _ => none)

/-- Model of the start-endpoint year resolution in `parseDateRange`
(lines 68-79): an implicit year takes the reference year and is bumped when
the (valid) candidate lies strictly before the reference date. -/
def resolveStartYear (sp : DateParts) (now : PlainDate) : Nat :=
  let y0 := if sp.hasYear then sp.year.getD 0 else now.year
  if ¬sp.hasYear ∧ isValidDate y0 sp.month sp.day = true ∧
      dateLtb ⟨y0, sp.month, sp.day⟩ now = true
  then y0 + 1 else y0

/-- Model of the end-endpoint year resolution in `parseDateRange`
(lines 81-92): an implicit year inherits the resolved start year and is
bumped when the (valid) candidate lies strictly before the resolved start
date.  Luxon comparisons involving an invalid date are `NaN` comparisons,
hence `false`, which the `startValid` conjunct models. -/
def resolveEndYear (ep : DateParts) (startYear : Nat) (startD : PlainDate)
    (startValid : Bool) : Nat :=
  let y0 := if ep.hasYear then ep.year.getD 0 else startYear
  if ¬ep.hasYear ∧ isValidDate y0 ep.month ep.day = true ∧ startValid = true ∧
      dateLtb ⟨y0, ep.month, ep.day⟩ startD = true
  then y0 + 1 else y0

/-- Model of the range-resolution block of `parseDateRange` (lines 63-96):
resolve both endpoints (the date is recreated after each year bump, so
validity is rechecked with the bumped year) and return them when both are
valid. -/
def resolveRange (st et : List Char) (now : PlainDate) :
    Option (PlainDate × PlainDate) :=
  match parseDatePartsL st, parseDatePartsL et with
  | some sp, some ep =>
    let startYear := resolveStartYear sp now
    let startD : PlainDate := ⟨startYear, sp.month, sp.day⟩
    let startValid := isValidDate startYear sp.month sp.day
    let endYear := resolveEndYear ep startYear startD startValid
    if startValid = true ∧ isValidDate endYear ep.month ep.day = true then
      some (startD, ⟨endYear, ep.month, ep.day⟩)
    else none
  | _, _ => none

/-- Model of the single-date fallback of `parseDateRange` (lines 98-105). -/
def singleDateRange (s : String) (now : PlainDate) : Option (PlainDate × PlainDate) :=
  match parseDate s now with
  | none => none
  | some d => if isValidDate d.year d.month d.day = true then some (d, d) else none

/-- Model of `parseDateRange` from `src/utils/parse.ts`.  The separators are
tried in source order (`~`, then `..`, then the compact form); the JavaScript
truthiness test `startToken && endToken` (empty strings are falsy) becomes
the `≠ []` test, and a falsy token falls through to the single-date path. -/
def parseDateRange (s : String) (now : PlainDate) : Option (PlainDate × PlainDate) :=
  let cs := s.toList
  let tokens : Option (List Char × List Char) :=
    match splitOnTilde cs with
    | a :: c :: _ => some (a, c)
    | _ =>
      match splitOnDotDot cs with
      | a :: c :: _ => some (a, c)
      | _ => matchMDRange cs
  match tokens with
  | some (st, et) =>
    if st ≠ [] ∧ et ≠ [] then resolveRange st et now else singleDateRange s now
  | none => singleDateRange s now

/-- Model of `parseDuration` from `src/utils/parse.ts` on the character
list: `^(\d+)$` is tried first (a nonempty all-digit string), then
`^(\d+)(m|h)$/i` (nonempty all-digit prefix and a final unit letter), with
`h`/`H` meaning hours, so the value is multiplied by 60. -/
def parseDurationL (cs : List Char) : Option Nat :=
  if cs ≠ [] ∧ cs.all Char.isDigit = true then some (digitsToNat cs)
  else
    if cs.dropLast ≠ [] ∧ cs.dropLast.all Char.isDigit = true ∧
        (cs.getLast? = some 'm' ∨ cs.getLast? = some 'M' ∨
         cs.getLast? = some 'h' ∨ cs.getLast? = some 'H') then
      if cs.getLast? = some 'h' ∨ cs.getLast? = some 'H' then
        some (digitsToNat cs.dropLast * 60)
      else some (digitsToNat cs.dropLast)
    else none

/-- Model of `parseDuration` on strings. -/
def parseDuration (s : String) : Option Nat := parseDurationL s.toList

/-! ### Lemmas about the interval algebra -/

theorem disjoint_of_sep {I J : Interval} (h : I.«end» ≤ J.start) : disjointI I J := by
  rintro t ⟨⟨_, h1⟩, ⟨h2, _⟩⟩
  omega

theorem disjoint_of_sep' {I J : Interval} (h : J.«end» ≤ I.start) : disjointI I J := by
  rintro t ⟨⟨h1, _⟩, ⟨_, h2⟩⟩
  omega

theorem clampTo_bounds (a b : Int) (i : Interval) :
    a ≤ (clampTo a b i).start ∧ (clampTo a b i).«end» ≤ b := by
  simp only [clampTo]
  constructor
  · split <;> omega
  · split <;> omega

theorem mergeRun_spec (a b : Int) (l : List Interval) (cur : Interval)
    (h1 : a ≤ cur.start) (h2 : cur.start < cur.«end») (h3 : cur.«end» ≤ b)
    (hb : ∀ i ∈ l, a ≤ i.start ∧ i.start < i.«end» ∧ i.«end» ≤ b)
    (hs : List.Pairwise startLE l)
    (hg : ∀ i ∈ l, cur.start ≤ i.start) :
    (∀ j ∈ mergeRun cur l, a ≤ j.start ∧ j.start < j.«end» ∧ j.«end» ≤ b) ∧
    List.Pairwise gapped (mergeRun cur l) ∧
    (∀ j ∈ mergeRun cur l, cur.start ≤ j.start) := by
  induction l generalizing cur with
  | nil =>
    refine ⟨?_, ?_, ?_⟩ <;> simp [mergeRun]
    · exact ⟨h1, h2, h3⟩
  | cons i rest ih =>
    obtain ⟨hib, hrb⟩ := List.forall_mem_cons.mp hb
    have hsrest := hs.of_cons
    have hirel : ∀ j ∈ rest, i.start ≤ j.start :=
      fun j hj => List.rel_of_pairwise_cons hs hj
    obtain ⟨hgi, hgrest⟩ := List.forall_mem_cons.mp hg
    rw [mergeRun]
    split
    case isTrue hlt =>
      obtain ⟨B, P, G⟩ := ih i hib.1 hib.2.1 hib.2.2 hrb hsrest hirel
      refine ⟨?_, ?_, ?_⟩
      · intro j hj
        rcases List.mem_cons.mp hj with rfl | hj
        · exact ⟨h1, h2, h3⟩
        · exact B j hj
      · refine List.pairwise_cons.mpr ⟨?_, P⟩
        intro j hj
        have := G j hj
        show cur.«end» < j.start
        omega
      · intro j hj
        rcases List.mem_cons.mp hj with rfl | hj
        · exact le_refl _
        · have := G j hj
          omega
    case isFalse hnlt =>
      split
      case isTrue hext =>
        have hrec := ih ⟨cur.start, i.«end»⟩ h1 (by show cur.start < i.«end»; omega)
          (by show i.«end» ≤ b; exact hib.2.2) hrb hsrest
          (by intro j hj; show cur.start ≤ j.start; have := hirel j hj; omega)
        exact hrec
      case isFalse hnext =>
        exact ih cur h1 h2 h3 hrb hsrest
          (fun j hj => by have := hirel j hj; omega)

theorem merge_laid (x : List Interval) (a b : Int) : Laid a b (mergeBusyIntervals x a b) := by
  unfold mergeBusyIntervals
  have hmem : ∀ i ∈ List.insertionSort startLE
      ((x.map (clampTo a b)).filter (fun i => decide (i.start < i.«end»))),
      a ≤ i.start ∧ i.start < i.«end» ∧ i.«end» ≤ b := by
    intro i hi
    rw [List.mem_insertionSort, List.mem_filter] at hi
    obtain ⟨hmap, hfl⟩ := hi
    obtain ⟨j, _, rfl⟩ := List.mem_map.mp hmap
    have hcb := clampTo_bounds a b j
    exact ⟨hcb.1, of_decide_eq_true hfl, hcb.2⟩
  have hsorted : List.Pairwise startLE (List.insertionSort startLE
      ((x.map (clampTo a b)).filter (fun i => decide (i.start < i.«end»)))) :=
    List.sorted_insertionSort startLE _
  cases hsl : List.insertionSort startLE
      ((x.map (clampTo a b)).filter (fun i => decide (i.start < i.«end»))) with
  | nil => exact ⟨by simp [mergeSweep], by simp [mergeSweep]⟩
  | cons cur rest =>
    rw [hsl] at hmem hsorted
    have hcur := hmem cur (List.mem_cons_self _ _)
    obtain ⟨B, P, _⟩ := mergeRun_spec a b rest cur hcur.1 hcur.2.1 hcur.2.2
      (fun i hi => hmem i (List.mem_cons_of_mem _ hi)) hsorted.of_cons
      (fun i hi => List.rel_of_pairwise_cons hsorted hi)
    exact ⟨B, P⟩

theorem mergeRun_eq (l : List Interval) : ∀ cur, List.Pairwise gapped (cur :: l) →
    mergeRun cur l = cur :: l := by
  induction l with
  | nil => intro cur _; rfl
  | cons i rest ih =>
    intro cur hp
    have h1 : cur.«end» < i.start := List.rel_of_pairwise_cons hp (List.mem_cons_self _ _)
    rw [mergeRun, if_pos h1, ih i hp.of_cons]

theorem map_clamp_self {a b : Int} {l : List Interval}
    (h : ∀ i ∈ l, clampTo a b i = i) : l.map (clampTo a b) = l := by
  induction l with
  | nil => rfl
  | cons x xs ih =>
    rw [List.map_cons, h x (List.mem_cons_self _ _),
      ih (fun i hi => h i (List.mem_cons_of_mem _ hi))]

theorem merge_eq_of_laid {a b : Int} {l : List Interval} (h : Laid a b l) :
    mergeBusyIntervals l a b = l := by
  obtain ⟨hb, hp⟩ := h
  have hclamp : ∀ i ∈ l, clampTo a b i = i := by
    intro i hi
    obtain ⟨h1, h2, h3⟩ := hb i hi
    unfold clampTo
    have e1 : (if i.start < a then a else i.start) = i.start := if_neg (by omega)
    have e2 : (if b < i.«end» then b else i.«end») = i.«end» := if_neg (by omega)
    rw [e1, e2]
  have hfil : l.filter (fun i => decide (i.start < i.«end»)) = l :=
    List.filter_eq_self.mpr (fun i hi => decide_eq_true (hb i hi).2.1)
  have hsorted : List.Pairwise startLE l :=
    hp.imp_of_mem (fun hx _ hg => by
      have h2 : _ < _ := (hb _ hx).2.1
      have h3 : _ < _ := hg
      show _ ≤ _
      omega)
  unfold mergeBusyIntervals
  rw [map_clamp_self hclamp, hfil,
    List.Sorted.insertionSort_eq (show List.Sorted startLE l from hsorted)]
  cases l with
  | nil => rfl
  | cons cur rest => exact mergeRun_eq rest cur hp

theorem buildFreeLoop_cons {b c : Int} {i : Interval} {rest : List Interval}
    (h : c < i.«end») :
    buildFreeLoop b c (i :: rest) =
      (if c < i.start then [⟨c, i.start⟩] else []) ++ buildFreeLoop b i.«end» rest := by
  rw [buildFreeLoop, if_pos h]

theorem buildFreeLoop_spec (b : Int) (M : List Interval) : ∀ (c : Int),
    (∀ i ∈ M, c ≤ i.start ∧ i.start < i.«end» ∧ i.«end» ≤ b) →
    List.Pairwise gapped M →
    (∀ j ∈ buildFreeLoop b c M, c ≤ j.start ∧ j.start < j.«end» ∧ j.«end» ≤ b) ∧
    List.Pairwise disjointI (buildFreeLoop b c M) ∧
    (∀ i ∈ M, ∀ j ∈ buildFreeLoop b c M, disjointI i j) ∧
    (∀ t : Int, (c ≤ t ∧ t < b) ↔
      ((∃ i ∈ M, memI t i) ∨ ∃ j ∈ buildFreeLoop b c M, memI t j)) := by
  induction M with
  | nil =>
    intro c _ _
    by_cases hcb : c < b
    · rw [buildFreeLoop, if_pos hcb] at *
      refine ⟨?_, ?_, ?_, ?_⟩
      · intro j hj
        have hj' := List.mem_singleton.mp hj
        subst hj'
        exact ⟨le_refl c, hcb, le_refl b⟩
      · exact List.pairwise_singleton _ _
      · intro i hi
        exact absurd hi (List.not_mem_nil i)
      · intro t
        constructor
        · intro h
          exact Or.inr ⟨⟨c, b⟩, List.mem_singleton_self _, h.1, h.2⟩
        · rintro (⟨i, hi, _⟩ | ⟨j, hj, hm⟩)
          · exact absurd hi (List.not_mem_nil i)
          · have hj' := List.mem_singleton.mp hj
            subst hj'
            exact hm
    · rw [buildFreeLoop, if_neg hcb] at *
      refine ⟨?_, ?_, ?_, ?_⟩
      · intro j hj
        exact absurd hj (List.not_mem_nil j)
      · exact List.Pairwise.nil
      · intro i hi
        exact absurd hi (List.not_mem_nil i)
      · intro t
        constructor
        · intro h
          omega
        · rintro (⟨i, hi, _⟩ | ⟨j, hj, _⟩)
          · exact absurd hi (List.not_mem_nil i)
          · exact absurd hj (List.not_mem_nil j)
  | cons i rest ih =>
    intro c hb hp
    obtain ⟨hbi, hbrest⟩ := List.forall_mem_cons.mp hb
    obtain ⟨hci, hii, hib⟩ := hbi
    have hprest := hp.of_cons
    have hrel : ∀ j ∈ rest, i.«end» < j.start :=
      fun j hj => List.rel_of_pairwise_cons hp hj
    obtain ⟨B, P, X, C⟩ := ih i.«end»
      (fun j hj => ⟨le_of_lt (hrel j hj), (hbrest j hj).2.1, (hbrest j hj).2.2⟩) hprest
    rw [buildFreeLoop_cons (show c < i.«end» by omega)]
    by_cases hch : c < i.start
    · rw [if_pos hch, List.singleton_append]
      refine ⟨?_, ?_, ?_, ?_⟩
      · intro j hj
        rcases List.mem_cons.mp hj with hj' | hj
        · subst hj'
          exact ⟨le_refl c, hch, show i.start ≤ b by omega⟩
        · have h := B j hj
          exact ⟨by omega, h.2.1, h.2.2⟩
      · refine List.pairwise_cons.mpr ⟨?_, P⟩
        intro j hj
        have h := B j hj
        exact disjoint_of_sep (show i.start ≤ j.start by omega)
      · intro i' hi' j hj
        rcases List.mem_cons.mp hi' with hi'' | hi'
        · subst hi''
          rcases List.mem_cons.mp hj with hj' | hj
          · subst hj'
            exact disjoint_of_sep' (le_refl _)
          · have h := B j hj
            exact disjoint_of_sep h.1
        · rcases List.mem_cons.mp hj with hj' | hj
          · subst hj'
            have h := hrel i' hi'
            exact disjoint_of_sep' (show i.start ≤ i'.start by omega)
          · exact X i' hi' j hj
      · intro t
        have hC := C t
        constructor
        · rintro ⟨hct, htb⟩
          by_cases h1 : t < i.start
          · exact Or.inr ⟨⟨c, i.start⟩, List.mem_cons_self _ _, hct, h1⟩
          · by_cases h2 : t < i.«end»
            · exact Or.inl ⟨i, List.mem_cons_self _ _, by omega, h2⟩
            · rcases hC.mp ⟨by omega, htb⟩ with ⟨x, hx, hmx⟩ | ⟨x, hx, hmx⟩
              · exact Or.inl ⟨x, List.mem_cons_of_mem _ hx, hmx⟩
              · exact Or.inr ⟨x, List.mem_cons_of_mem _ hx, hmx⟩
        · rintro (⟨x, hx, hmx⟩ | ⟨x, hx, hmx⟩)
          · rcases List.mem_cons.mp hx with hx' | hx
            · subst hx'
              obtain ⟨m1, m2⟩ := hmx
              omega
            · have h := hC.mpr (Or.inl ⟨x, hx, hmx⟩)
              omega
          · rcases List.mem_cons.mp hx with hx' | hx
            · subst hx'
              have m1 : c ≤ t := hmx.1
              have m2 : t < i.start := hmx.2
              omega
            · have h := hC.mpr (Or.inr ⟨x, hx, hmx⟩)
              omega
    · rw [if_neg hch, List.nil_append]
      have hce : i.start ≤ c := not_lt.mp hch
      refine ⟨?_, ?_, ?_, ?_⟩
      · intro j hj
        have h := B j hj
        exact ⟨by omega, h.2.1, h.2.2⟩
      · exact P
      · intro i' hi' j hj
        rcases List.mem_cons.mp hi' with hi'' | hi'
        · subst hi''
          have h := B j hj
          exact disjoint_of_sep h.1
        · exact X i' hi' j hj
      · intro t
        have hC := C t
        constructor
        · rintro ⟨hct, htb⟩
          by_cases h2 : t < i.«end»
          · exact Or.inl ⟨i, List.mem_cons_self _ _, by omega, h2⟩
          · rcases hC.mp ⟨by omega, htb⟩ with ⟨x, hx, hmx⟩ | ⟨x, hx, hmx⟩
            · exact Or.inl ⟨x, List.mem_cons_of_mem _ hx, hmx⟩
            · exact Or.inr ⟨x, hx, hmx⟩
        · rintro (⟨x, hx, hmx⟩ | ⟨x, hx, hmx⟩)
          · rcases List.mem_cons.mp hx with hx' | hx
            · subst hx'
              obtain ⟨m1, m2⟩ := hmx
              omega
            · have h := hC.mpr (Or.inl ⟨x, hx, hmx⟩)
              omega
          · have h := hC.mpr (Or.inr ⟨x, hx, hmx⟩)
            omega

theorem laid_pairwise_disjoint {a b : Int} {l : List Interval} (h : Laid a b l) :
    List.Pairwise disjointI l :=
  h.2.imp (fun hg => disjoint_of_sep (le_of_lt hg))

theorem buildFreeIntervals_eq_loop {a b : Int} (M : List Interval) (hab : a < b) :
    buildFreeIntervals a b M = buildFreeLoop b a M := by
  unfold buildFreeIntervals
  split
  case isTrue h =>
    subst h
    rw [buildFreeLoop, if_pos hab]
  case isFalse h => rfl

/-! ### Claims about the interval algebra -/

/-- C1: for every `rangeStart < rangeEnd` and every finite list of busy
intervals, the output of `mergeBusyIntervals` together with the output of
`buildFreeIntervals` on it partitions the half-open range
`[rangeStart, rangeEnd)`: the emitted intervals are pairwise disjoint and
every instant of the range lies in (exactly) one of them. -/
theorem merge_free_partition (intervals : List Interval) (a b : Int) (hab : a < b) :
    List.Pairwise disjointI
      (mergeBusyIntervals intervals a b ++
        buildFreeIntervals a b (mergeBusyIntervals intervals a b)) ∧
    ∀ t : Int, (a ≤ t ∧ t < b) ↔
      ∃ I ∈ mergeBusyIntervals intervals a b ++
        buildFreeIntervals a b (mergeBusyIntervals intervals a b), memI t I := by
  obtain ⟨hB, hP⟩ := merge_laid intervals a b
  rw [buildFreeIntervals_eq_loop _ hab]
  obtain ⟨B, P, X, C⟩ := buildFreeLoop_spec b (mergeBusyIntervals intervals a b) a hB hP
  constructor
  · exact List.pairwise_append.mpr
      ⟨laid_pairwise_disjoint ⟨hB, hP⟩, P, fun i hi j hj => X i hi j hj⟩
  · intro t
    constructor
    · intro h
      rcases (C t).mp h with ⟨I, hI, hm⟩ | ⟨I, hI, hm⟩
      · exact ⟨I, List.mem_append_left _ hI, hm⟩
      · exact ⟨I, List.mem_append_right _ hI, hm⟩
    · rintro ⟨I, hI, hm⟩
      rcases List.mem_append.mp hI with h | h
      · exact (C t).mpr (Or.inl ⟨I, h, hm⟩)
      · exact (C t).mpr (Or.inr ⟨I, h, hm⟩)

/-- Witness for C1 at a concrete range and busy list. -/
theorem merge_free_partition_app :
    List.Pairwise disjointI
      (mergeBusyIntervals [⟨600, 660⟩] 540 1080 ++
        buildFreeIntervals 540 1080 (mergeBusyIntervals [⟨600, 660⟩] 540 1080)) ∧
    ∀ t : Int, ((540 : Int) ≤ t ∧ t < 1080) ↔
      ∃ I ∈ mergeBusyIntervals [⟨600, 660⟩] 540 1080 ++
        buildFreeIntervals 540 1080 (mergeBusyIntervals [⟨600, 660⟩] 540 1080), memI t I :=
  merge_free_partition [⟨600, 660⟩] 540 1080 (by decide)

/-- C2: `mergeBusyIntervals` is idempotent — re-merging its output against
the same bounds returns the output unchanged, for every input list and every
pair of bounds. -/
theorem mergeBusyIntervals_idem (x : List Interval) (a b : Int) :
    mergeBusyIntervals (mergeBusyIntervals x a b) a b = mergeBusyIntervals x a b :=
  merge_eq_of_laid (merge_laid x a b)

/-- C3: intervals that exactly touch (`next.start` equals the current
interval's `end`) are merged into a single interval; in particular the
touching inputs `[10:00, 11:00)` and `[11:00, 12:00)` (minutes 600–660 and
660–720) within the window `09:00`–`18:00` produce the single merged
interval `[10:00, 12:00)`. -/
theorem mergeBusyIntervals_touching :
    (∀ (I J : Interval) (a b : Int),
      a ≤ I.start → I.start < I.«end» → I.«end» = J.start → J.start < J.«end» →
      J.«end» ≤ b →
      mergeBusyIntervals [I, J] a b = [⟨I.start, J.«end»⟩]) ∧
    mergeBusyIntervals [⟨600, 660⟩, ⟨660, 720⟩] 540 1080 = [⟨600, 720⟩] := by
  constructor
  · intro I J a b h1 h2 h3 h4 h5
    have hI : clampTo a b I = I := by
      unfold clampTo
      rw [if_neg (by omega), if_neg (by omega)]
    have hJ : clampTo a b J = J := by
      unfold clampTo
      rw [if_neg (by omega), if_neg (by omega)]
    have hf : ([I, J].filter (fun i => decide (i.start < i.«end»))) = [I, J] := by
      refine List.filter_eq_self.mpr ?_
      intro x hx
      rcases List.mem_cons.mp hx with hx' | hx
      · subst hx'
        exact decide_eq_true h2
      · rcases List.mem_singleton.mp hx with hx'
        subst hx'
        exact decide_eq_true h4
    have hsorted : List.Sorted startLE [I, J] := by
      refine List.pairwise_cons.mpr ⟨?_, List.pairwise_singleton _ _⟩
      intro j hj
      rcases List.mem_singleton.mp hj with hj'
      subst hj'
      show I.start ≤ j.start
      omega
    have hrun : mergeRun I [J] = [⟨I.start, J.«end»⟩] := by
      rw [mergeRun, if_neg (by omega), if_pos (by omega), mergeRun]
    unfold mergeBusyIntervals
    rw [List.map_cons, List.map_cons, List.map_nil, hI, hJ, hf,
      List.Sorted.insertionSort_eq hsorted]
    exact hrun
  · decide

/-- Witness for C3's general statement at concrete touching intervals. -/
theorem mergeBusyIntervals_touching_app :
    mergeBusyIntervals [⟨60, 120⟩, ⟨120, 180⟩] 0 1440 = [⟨60, 180⟩] :=
  mergeBusyIntervals_touching.1 ⟨60, 120⟩ ⟨120, 180⟩ 0 1440
    (by decide) (by decide) rfl (by decide) (by decide)

/-- C4: `findFirstAvailableSlot` scans days in the given order and free
intervals in ascending order, returning the start of the first free interval
at least `durationMinutes` long, and `none` when no day yields one (this is
the refinement against the spec-side `firstSlotSpec`); concretely, with
window `09:00`–`18:00` (day at minute 0) and busy `[10:00, 11:00)` and
`[11:30, 12:30)`, duration 60 yields `09:00` (minute 540), duration 90
yields `12:30` (minute 750), and duration 600 yields `none`. -/
theorem findFirstAvailableSlot_correct :
    (∀ (days : List Int) (tr : TimeOfDayRange) (d : Int) (busy : List Interval),
      findFirstAvailableSlot days tr d busy = firstSlotSpec days tr d busy) ∧
    findFirstAvailableSlot [0] ⟨⟨9, 0⟩, ⟨18, 0⟩⟩ 60 [⟨600, 660⟩, ⟨690, 750⟩] = some 540 ∧
    findFirstAvailableSlot [0] ⟨⟨9, 0⟩, ⟨18, 0⟩⟩ 90 [⟨600, 660⟩, ⟨690, 750⟩] = some 750 ∧
    findFirstAvailableSlot [0] ⟨⟨9, 0⟩, ⟨18, 0⟩⟩ 600 [⟨600, 660⟩, ⟨690, 750⟩] = none := by
  refine ⟨?_, by decide, by decide, by decide⟩
  intro days tr d busy
  induction days with
  | nil => rfl
  | cons day rest ih =>
    simp only [findFirstAvailableSlot, firstSlotSpec, List.findSome?_cons]
    by_cases h : setTime day tr.«end» ≤ setTime day tr.start
    · simp only [if_pos h]
      rw [ih]
      rfl
    · simp only [if_neg h]
      cases hfind : (buildFreeIntervals (setTime day tr.start) (setTime day tr.«end»)
          (mergeBusyIntervals busy (setTime day tr.start) (setTime day tr.«end»))).find?
          (fun i => decide (d ≤ i.«end» - i.start)) with
      | some i => rfl
      | none =>
        rw [ih]
        rfl

/-! ### Claims about the expression parser -/

/-- C6: for a reference date `now` and a month/day string without an
explicit year that resolves to a valid date in `now`'s year, `parseDate`
advances the year by one exactly when that date lies strictly before `now`'s
start of day, and keeps `now`'s year otherwise; a date with an explicit year
is returned with that year unchanged. -/
theorem parseDate_year_resolution (s : String) (now : PlainDate) (p : DateParts)
    (hp : parseDateParts s = some p) :
    (p.hasYear = false → isValidDate now.year p.month p.day = true →
      ((dateLtb ⟨now.year, p.month, p.day⟩ now = true →
          parseDate s now = some ⟨now.year + 1, p.month, p.day⟩) ∧
       (dateLtb ⟨now.year, p.month, p.day⟩ now = false →
          parseDate s now = some ⟨now.year, p.month, p.day⟩))) ∧
    (p.hasYear = true → parseDate s now = some ⟨p.year.getD 0, p.month, p.day⟩) := by
  constructor
  · intro hy hv
    constructor
    · intro hlt
      simp [parseDate, hp, hy, hv, hlt]
    · intro hlt
      simp [parseDate, hp, hy, hv, hlt]
  · intro hy
    simp [parseDate, hp, hy]

/-- Witness for C6: for reference date 2025-12-01 the bare string `1/5`
resolves to 2026-01-05. -/
theorem parseDate_year_resolution_app :
    parseDate "1/5" ⟨2025, 12, 1⟩ = some ⟨2026, 1, 5⟩ :=
  ((parseDate_year_resolution "1/5" ⟨2025, 12, 1⟩ ⟨none, 1, 5, false⟩
    (by decide)).1 rfl (by decide)).1 (by decide)

theorem resolveEndYear_implicit_bump {ep : DateParts} {y : Nat} {sd : PlainDate}
    {v : Bool} (hy : ep.hasYear = false) (hval : isValidDate y ep.month ep.day = true)
    (hv : v = true) (hlt : dateLtb ⟨y, ep.month, ep.day⟩ sd = true) :
    resolveEndYear ep y sd v = y + 1 := by
  unfold resolveEndYear
  simp [hy, hval, hv, hlt]

theorem resolveEndYear_implicit_stay {ep : DateParts} {y : Nat} {sd : PlainDate}
    {v : Bool} (hy : ep.hasYear = false)
    (hlt : dateLtb ⟨y, ep.month, ep.day⟩ sd = false) :
    resolveEndYear ep y sd v = y := by
  unfold resolveEndYear
  simp [hy, hlt]

theorem resolveRange_eq {st et : List Char} {now : PlainDate} {sp ep : DateParts}
    (hsp : parseDatePartsL st = some sp) (hep : parseDatePartsL et = some ep) :
    resolveRange st et now =
      if isValidDate (resolveStartYear sp now) sp.month sp.day = true ∧
          isValidDate (resolveEndYear ep (resolveStartYear sp now)
            ⟨resolveStartYear sp now, sp.month, sp.day⟩
            (isValidDate (resolveStartYear sp now) sp.month sp.day)) ep.month ep.day
            = true
      then some ((⟨resolveStartYear sp now, sp.month, sp.day⟩ : PlainDate),
        ⟨resolveEndYear ep (resolveStartYear sp now)
          ⟨resolveStartYear sp now, sp.month, sp.day⟩
          (isValidDate (resolveStartYear sp now) sp.month sp.day), ep.month, ep.day⟩)
      else none := by
  unfold resolveRange
  rw [hsp, hep]

/-- C5: in `parseDateRange`, an end endpoint whose year is omitted inherits
the resolved start year, and when the so-resolved end date is still strictly
before the resolved start date its year is advanced by one; in particular
`parseDateRange "12/30~1/3"` with reference date 2025-12-01 resolves to
start 2025-12-30 and end 2026-01-03. -/
theorem parseDateRange_end_year :
    (∀ (st et : List Char) (now sd ed : PlainDate) (ep : DateParts),
      parseDatePartsL et = some ep → ep.hasYear = false →
      resolveRange st et now = some (sd, ed) →
      ed.month = ep.month ∧ ed.day = ep.day ∧
        (if dateLtb ⟨sd.year, ep.month, ep.day⟩ sd = true then ed.year = sd.year + 1
         else ed.year = sd.year)) ∧
    parseDateRange "12/30~1/3" ⟨2025, 12, 1⟩ = some (⟨2025, 12, 30⟩, ⟨2026, 1, 3⟩) := by
  constructor
  · intro st et now sd ed ep hep hy hres
    cases hsp : parseDatePartsL st with
    | none =>
      unfold resolveRange at hres
      rw [hsp, hep] at hres
      exact Option.noConfusion hres
    | some sp =>
      rw [resolveRange_eq hsp hep] at hres
      by_cases hcond : (isValidDate (resolveStartYear sp now) sp.month sp.day = true ∧
          isValidDate (resolveEndYear ep (resolveStartYear sp now)
            ⟨resolveStartYear sp now, sp.month, sp.day⟩
            (isValidDate (resolveStartYear sp now) sp.month sp.day)) ep.month ep.day
            = true)
      · rw [if_pos hcond] at hres
        obtain ⟨hsv, hev⟩ := hcond
        rw [Option.some.injEq, Prod.mk.injEq] at hres
        obtain ⟨hsd, hed⟩ := hres
        subst hsd
        subst hed
        refine ⟨rfl, rfl, ?_⟩
        dsimp only
        by_cases hd : dateLtb ⟨resolveStartYear sp now, ep.month, ep.day⟩
            ⟨resolveStartYear sp now, sp.month, sp.day⟩ = true
        · rw [if_pos hd]
          by_cases hev0 : isValidDate (resolveStartYear sp now) ep.month ep.day = true
          · exact resolveEndYear_implicit_bump hy hev0 hsv hd
          · have hstay : resolveEndYear ep (resolveStartYear sp now)
                ⟨resolveStartYear sp now, sp.month, sp.day⟩
                (isValidDate (resolveStartYear sp now) sp.month sp.day)
                = resolveStartYear sp now := by
              unfold resolveEndYear
              simp [hy, hev0]
            rw [hstay] at hev
            exact absurd hev hev0
        · rw [if_neg hd]
          simp only [Bool.not_eq_true] at hd
          exact resolveEndYear_implicit_stay hy hd
      · rw [if_neg hcond] at hres
        exact Option.noConfusion hres
  · decide

/-- Witness for C5's general statement at the tokens of `"12/30~1/3"` with
reference date 2025-12-01. -/
theorem parseDateRange_end_year_app :
    (⟨2026, 1, 3⟩ : PlainDate).month = (⟨none, 1, 3, false⟩ : DateParts).month ∧
    (⟨2026, 1, 3⟩ : PlainDate).day = (⟨none, 1, 3, false⟩ : DateParts).day ∧
    (if dateLtb ⟨(⟨2025, 12, 30⟩ : PlainDate).year, (⟨none, 1, 3, false⟩ : DateParts).month,
        (⟨none, 1, 3, false⟩ : DateParts).day⟩ ⟨2025, 12, 30⟩ = true
     then (⟨2026, 1, 3⟩ : PlainDate).year = (⟨2025, 12, 30⟩ : PlainDate).year + 1
     else (⟨2026, 1, 3⟩ : PlainDate).year = (⟨2025, 12, 30⟩ : PlainDate).year) :=
  parseDateRange_end_year.1 "12/30".toList "1/3".toList ⟨2025, 12, 1⟩ ⟨2025, 12, 30⟩
    ⟨2026, 1, 3⟩ ⟨none, 1, 3, false⟩ (by decide) rfl (by decide)

/-- C7 counterexample: on the empty list the formatter returns the literal
string `なし` (the Japanese word for "none"), not the ASCII string
`"none"`. -/
theorem formatIntervalsShort_empty_ne_none :
    formatIntervalsShort [] = "なし" ∧ formatIntervalsShort [] ≠ "none" := by
  constructor
  · rfl
  · decide

/-- C7 amended: the interval formatter, applied to the empty list, returns
the literal sentinel string `なし` (Japanese for "none"); applied to a
non-empty list it renders one `HH:MM - HH:MM` line per interval, joined by
newlines. -/
theorem formatIntervalsShort_spec :
    formatIntervalsShort [] = "なし" ∧
    (∀ l : List Interval, l ≠ [] →
      formatIntervalsShort l = String.intercalate "\n"
        (l.map (fun i => formatHHMM i.start ++ " - " ++ formatHHMM i.«end»))) ∧
    formatIntervalsShort [⟨600, 660⟩, ⟨690, 750⟩]
      = "10:00 - 11:00" ++ "\n" ++ "11:30 - 12:30" := by
  refine ⟨rfl, ?_, by decide⟩
  intro l hl
  unfold formatIntervalsShort
  rw [if_neg hl]

/-- Witness for C7's amended statement at a one-interval list. -/
theorem formatIntervalsShort_spec_app :
    formatIntervalsShort [(⟨0, 60⟩ : Interval)] = String.intercalate "\n"
      (([(⟨0, 60⟩ : Interval)]).map
        (fun i => formatHHMM i.start ++ " - " ++ formatHHMM i.«end»)) :=
  formatIntervalsShort_spec.2.1 [⟨0, 60⟩] (by decide)

theorem parseDurationL_unit (ds : List Char) (u : Char) (hne : ds ≠ [])
    (hdig : ds.all Char.isDigit = true) (hu : u.isDigit = false)
    (hunit : u = 'm' ∨ u = 'M' ∨ u = 'h' ∨ u = 'H') :
    parseDurationL (ds ++ [u]) =
      if u = 'h' ∨ u = 'H' then some (digitsToNat ds * 60)
      else some (digitsToNat ds) := by
  unfold parseDurationL
  have hfirst : ¬(ds ++ [u] ≠ [] ∧ (ds ++ [u]).all Char.isDigit = true) := by
    rintro ⟨-, hall⟩
    rw [List.all_append] at hall
    simp [List.all_cons, hu] at hall
  rw [if_neg hfirst, List.getLast?_concat, List.dropLast_concat]
  have hcond : some u = some 'm' ∨ some u = some 'M' ∨
      some u = some 'h' ∨ some u = some 'H' := by
    rcases hunit with h | h | h | h <;> simp [h]
  rw [if_pos ⟨hne, hdig, hcond⟩]
  have hsome : (some u = some 'h' ∨ some u = some 'H') ↔ (u = 'h' ∨ u = 'H') := by
    simp [Option.some.injEq]
  by_cases hh : u = 'h' ∨ u = 'H'
  · rw [if_pos (hsome.mpr hh), if_pos hh]
  · rw [if_neg (fun hc => hh (hsome.mp hc)), if_neg hh]

/-- C8: `parseDuration` maps a plain nonempty digit string to its value in
minutes, a digit string followed by `m`/`M` to its value, and one followed
by `h`/`H` to 60 times its value; every other input yields `none`;
concretely `"45"` gives 45, `"30m"` gives 30, `"2h"` gives 120 and `"abc"`
gives `none`. -/
theorem parseDuration_spec :
    parseDuration "45" = some 45 ∧ parseDuration "30m" = some 30 ∧
    parseDuration "2h" = some 120 ∧ parseDuration "abc" = none ∧
    (∀ ds : List Char, ds ≠ [] → ds.all Char.isDigit = true →
      parseDuration (String.mk ds) = some (digitsToNat ds) ∧
      parseDuration (String.mk (ds ++ ['m'])) = some (digitsToNat ds) ∧
      parseDuration (String.mk (ds ++ ['M'])) = some (digitsToNat ds) ∧
      parseDuration (String.mk (ds ++ ['h'])) = some (digitsToNat ds * 60) ∧
      parseDuration (String.mk (ds ++ ['H'])) = some (digitsToNat ds * 60)) ∧
    (∀ s : String, parseDuration s ≠ none →
      (s.toList ≠ [] ∧ s.toList.all Char.isDigit = true) ∨
      ∃ (ds : List Char) (u : Char), s.toList = ds ++ [u] ∧ ds ≠ [] ∧
        ds.all Char.isDigit = true ∧ (u = 'm' ∨ u = 'M' ∨ u = 'h' ∨ u = 'H')) := by
  refine ⟨by decide, by decide, by decide, by decide, ?_, ?_⟩
  · intro ds hne hdig
    refine ⟨?_, ?_, ?_, ?_, ?_⟩
    · show parseDurationL ds = some (digitsToNat ds)
      unfold parseDurationL
      rw [if_pos ⟨hne, hdig⟩]
    · show parseDurationL (ds ++ ['m']) = some (digitsToNat ds)
      rw [parseDurationL_unit ds 'm' hne hdig (by decide) (Or.inl rfl)]
      rw [if_neg (by decide)]
    · show parseDurationL (ds ++ ['M']) = some (digitsToNat ds)
      rw [parseDurationL_unit ds 'M' hne hdig (by decide) (Or.inr (Or.inl rfl))]
      rw [if_neg (by decide)]
    · show parseDurationL (ds ++ ['h']) = some (digitsToNat ds * 60)
      rw [parseDurationL_unit ds 'h' hne hdig (by decide)
        (Or.inr (Or.inr (Or.inl rfl)))]
      rw [if_pos (Or.inl rfl)]
    · show parseDurationL (ds ++ ['H']) = some (digitsToNat ds * 60)
      rw [parseDurationL_unit ds 'H' hne hdig (by decide)
        (Or.inr (Or.inr (Or.inr rfl)))]
      rw [if_pos (Or.inr rfl)]
  · intro s hne
    by_cases h1 : (s.toList ≠ [] ∧ s.toList.all Char.isDigit = true)
    · exact Or.inl h1
    · right
      have hne' : parseDurationL s.toList ≠ none := hne
      unfold parseDurationL at hne'
      rw [if_neg h1] at hne'
      by_cases h2 : (s.toList.dropLast ≠ [] ∧ s.toList.dropLast.all Char.isDigit = true ∧
          (s.toList.getLast? = some 'm' ∨ s.toList.getLast? = some 'M' ∨
           s.toList.getLast? = some 'h' ∨ s.toList.getLast? = some 'H'))
      · obtain ⟨hd1, hd2, hd3⟩ := h2
        rcases hd3 with h | h | h | h
        · exact ⟨s.toList.dropLast, 'm', (List.dropLast_append_getLast? 'm' h).symm,
            hd1, hd2, Or.inl rfl⟩
        · exact ⟨s.toList.dropLast, 'M', (List.dropLast_append_getLast? 'M' h).symm,
            hd1, hd2, Or.inr (Or.inl rfl)⟩
        · exact ⟨s.toList.dropLast, 'h', (List.dropLast_append_getLast? 'h' h).symm,
            hd1, hd2, Or.inr (Or.inr (Or.inl rfl))⟩
        · exact ⟨s.toList.dropLast, 'H', (List.dropLast_append_getLast? 'H' h).symm,
            hd1, hd2, Or.inr (Or.inr (Or.inr rfl))⟩
      · rw [if_neg h2] at hne'
        exact absurd rfl hne'

/-- Witness for C8's general statements at the digit string `7`. -/
theorem parseDuration_spec_app :
    parseDuration (String.mk ['7']) = some (digitsToNat ['7']) ∧
    parseDuration (String.mk (['7'] ++ ['m'])) = some (digitsToNat ['7']) ∧
    parseDuration (String.mk (['7'] ++ ['M'])) = some (digitsToNat ['7']) ∧
    parseDuration (String.mk (['7'] ++ ['h'])) = some (digitsToNat ['7'] * 60) ∧
    parseDuration (String.mk (['7'] ++ ['H'])) = some (digitsToNat ['7'] * 60) :=
  parseDuration_spec.2.2.2.2.1 ['7'] (by decide) (by decide)

/-- C9: `parseDate` validates only the textual shape, not that the denoted
calendar date exists: `"2/30"` names no real date (February has at most 29
days), yet `parseDate` returns a populated record, not the `none`
sentinel. -/
theorem parseDate_shape_only :
    parseDateParts "2/30" = some ⟨none, 2, 30, false⟩ ∧
    isValidDate 2025 2 30 = false ∧
    parseDate "2/30" ⟨2025, 12, 1⟩ = some ⟨2025, 2, 30⟩ := by
  refine ⟨by decide, by decide, by decide⟩

/-- C10: `parseDuration` returns `some 0`, not `none`, on each of `"0"`,
`"0m"` and `"0h"`: the parser accepts a zero-minute duration, and rejecting
it is left to the caller. -/
theorem parseDuration_zero :
    parseDuration "0" = some 0 ∧ parseDuration "0m" = some 0 ∧
    parseDuration "0h" = some 0 := by
  refine ⟨by decide, by decide, by decide⟩

end GCalApp
